import Mathlib

/-!
Verification of the SPDev SPDAC driver (src/SPDev/SPDAC.py): the internal
trigger pool and the virtual-gate arrangement subsystem (contacts, correction
matrix, virtual voltages, sweep programs, teardown).

The embedding is a shallow one over exact rationals:
* Python floats are modelled as `ℚ` (ideal real arithmetic).
* numpy vectors and matrices are `List ℚ` and `List (List ℚ)` (lists of rows).
* The mutable `Arrangement_Context` object is the record `Arrangement`;
  methods become functions from the record to an updated record, returning
  emitted SCPI commands explicitly as a `List ScpiCmd`.
* Python exceptions become `Except`; where a raise leaves partial mutations
  behind, the error value carries the mutated record.
* The trigger pool (`SPDac._internal_triggers`, a Python `set`) is a
  `Finset ℕ`; `set.pop` returns an arbitrary element, so allocation is a
  step relation rather than a function.
-/

/-- Number of internal triggers, `SPDac.n_triggers` (constant 14). -/
def nTriggers : ℕ := 14

/-- Initial free pool, `SPDac._set_up_internal_triggers`:
`set(range(1, self.n_triggers() + 1))`. -/
def initialTriggerPool : Finset ℕ := Finset.Icc 1 nTriggers

/-- `SPDac.free_trigger`: adds the trigger number back to the free set
(`self._internal_triggers.add(internal)`), unconditionally. -/
def free_trigger (pool : Finset ℕ) (t : ℕ) : Finset ℕ := insert t pool

/-- Pool state: the free set kept by the driver plus a ghost field recording
the ids that have been issued by `allocate_trigger` and not yet freed. -/
structure PoolState where
  pool : Finset ℕ
  outstanding : Finset ℕ
deriving DecidableEq

/-- Result of one call to `SPDac.allocate_trigger`: either an id, or the
`ValueError` raised when the free set is empty. -/
inductive AllocResult where
  | ok (t : ℕ)
  | resourceExhausted
deriving DecidableEq

/-- One driver operation on the trigger pool. -/
inductive TrigOp where
  | alloc (r : AllocResult)
  | free (t : ℕ)
deriving DecidableEq

/-- Small-step semantics of `allocate_trigger` and `free_trigger`.
`allocate_trigger` pops an arbitrary member of the free set (hence a relation,
not a function) and raises when the set is empty; `free_trigger` re-inserts an
id.  Trigger contexts are only created by `allocate_trigger`, so a freed id is
one of the outstanding ones. -/
inductive TrigStep : PoolState → TrigOp → PoolState → Prop where
  | allocOk (s : PoolState) (t : ℕ) (h : t ∈ s.pool) :
      TrigStep s (TrigOp.alloc (AllocResult.ok t))
        ⟨s.pool.erase t, insert t s.outstanding⟩
  | allocFail (s : PoolState) (h : s.pool = ∅) :
      TrigStep s (TrigOp.alloc AllocResult.resourceExhausted) s
  | freeTrig (s : PoolState) (t : ℕ) (h : t ∈ s.outstanding) :
      TrigStep s (TrigOp.free t) ⟨free_trigger s.pool t, s.outstanding.erase t⟩

/-- A sequence of pool operations, run from a start state. -/
inductive TrigTrace : PoolState → List TrigOp → PoolState → Prop where
  | nil (s : PoolState) : TrigTrace s [] s
  | cons {s s1 s2 : PoolState} {op : TrigOp} {ops : List TrigOp}
      (hstep : TrigStep s op s1) (htail : TrigTrace s1 ops s2) :
      TrigTrace s (op :: ops) s2

/-- The driver starts with the full pool free and nothing outstanding. -/
def initState : PoolState := ⟨initialTriggerPool, ∅⟩

/-- SCPI commands emitted by the embedded fragment, at the granularity the
claims talk about.  `voltModeFix ch` and `volt ch v` are the two writes of
`SPDacChannel._set_fixed_voltage_immediately`; the rest are the teardown
writes of `Arrangement_Context.__exit__` and `Virtual_Sweep_Context.__exit__`. -/
inductive ScpiCmd where
  | voltModeFix (ch : ℕ)
  | volt (ch : ℕ) (v : ℚ)
  | outpTrigSourHold (port : ℕ)
  | dcMarkSstZero (ch : ℕ)
  | dcAbort (ch : ℕ)
  | dcTrigSourImm (ch : ℕ)
deriving DecidableEq

/-- Dot product of two vectors (zip truncates like numpy broadcasting never
does; all uses are at equal lengths). -/
def dot (xs ys : List ℚ) : ℚ := (List.zipWith (fun a b => a * b) xs ys).sum

/-- `np.matmul(matrix, vector)`: one dot product per row. -/
def matVec (m : List (List ℚ)) (v : List ℚ) : List ℚ := m.map (fun row => dot row v)

/-- Row `i` of the `n`-dimensional identity matrix. -/
def stdBasis : ℕ → ℕ → List ℚ
  | 0, _ => []
  | n + 1, 0 => 1 :: List.replicate n 0
  | n + 1, i + 1 => 0 :: stdBasis n i

/-- `np.identity(n)` as a list of rows. -/
def identityMat (n : ℕ) : List (List ℚ) := (List.range n).map (stdBasis n)

/-- `np.matmul` of two square matrices: entry `(i, j)` is the dot product of
row `i` of `a` with column `j` of `b`. -/
def matMul (a b : List (List ℚ)) : List (List ℚ) :=
  a.map (fun row => b.transpose.map (fun col => dot row col))

/-- The mutable state of `Arrangement_Context` that the claims mention.
`contacts` is the `_contacts` dict as an association list from contact name
to index (Python dicts iterate in insertion order and have unique keys);
`internalTriggers` and `externalTriggers` map names to trigger numbers and
output ports. -/
structure Arrangement where
  contacts : List (String × ℕ)
  channels : List ℕ
  virtualVoltages : List ℚ
  correction : List (List ℚ)
  internalTriggers : List (String × ℕ)
  externalTriggers : List (String × ℕ)
deriving DecidableEq

/-- `Arrangement_Context._fix_contact_order` followed by the
`self._correction = np.identity(self.shape)` line of `__init__`, for an input
contact dict with no trigger arguments.  The input list models the Python
dict items (unique names, insertion order). -/
def fixContactOrder (contacts : List (String × ℕ)) : Arrangement :=
  { contacts := contacts.enum.map (fun p => (p.2.1, p.1)),
    channels := contacts.map (fun p => p.2),
    virtualVoltages := List.replicate contacts.length 0,
    correction := identityMat contacts.length,
    internalTriggers := [],
    externalTriggers := [] }

/-- `Arrangement_Context._contact_index`: dict lookup, `none` models the
`KeyError` on an unknown name. -/
def contactIndex (arr : Arrangement) (contact : String) : Option ℕ :=
  (arr.contacts.find? (fun p => p.1 == contact)).map (fun p => p.2)

/-- Round half to even (the rounding `np.round` documents), on exact
rationals. -/
def roundHalfEven (x : ℚ) : ℤ :=
  let f := ⌊x⌋
  let r := x - f
  if r < 1 / 2 then f
  else if r > 1 / 2 then f + 1
  else if f % 2 = 0 then f else f + 1

/-- `np.round(x, d)`: round half to even at `d` decimal places. -/
def npRound (d : ℕ) (x : ℚ) : ℚ :=
  (roundHalfEven (x * 10 ^ d) : ℚ) / 10 ^ d

/-- `Arrangement_Context.actual_voltages`.  `ro` is `SPDac._round_off`
(`None` by default).  The source guards rounding with the Python truthiness
test `if self._spdac._round_off:`, so a configured precision of `0` is
treated like `None`. -/
def actualVoltages (ro : Option ℕ) (arr : Arrangement) : List ℚ :=
  let vs := matVec arr.correction arr.virtualVoltages
  match ro with
  | none => vs
  | some d => if d = 0 then vs else vs.map (npRound d)

/-- Setting the `dc_constant_V` qcodes parameter on a channel: the parameter
is declared with `vals=validators.Numbers(-10.0, 10.0)`, so a voltage outside
[-10, 10] raises `ValueError` before anything is written; otherwise
`_set_fixed_voltage_immediately` sends its two SCPI writes. -/
def dcConstantV (ch : ℕ) (v : ℚ) : Except String (List ScpiCmd) :=
  if v < -10 ∨ 10 < v then .error "ValueError"
  else .ok [ScpiCmd.voltModeFix ch, ScpiCmd.volt ch v]

/-- The loop body of `Arrangement_Context._effectuate_virtual_voltages`:
`for index, channel_number in enumerate(self._channels): ...
dc_constant_V(self.actual_voltages()[index])`.  The commands written so far
are returned alongside the first validation error, if any: a `ValueError`
raised mid-loop leaves the earlier channels already written and the later
ones untouched. -/
def emitConstantWrites (av : List ℚ) :
    List (ℕ × ℕ) → List ScpiCmd × Option String
  | [] => ([], none)
  | (i, ch) :: rest =>
    match dcConstantV ch (av.getD i 0) with
    | .error e => ([], some e)
    | .ok cmds =>
      let result := emitConstantWrites av rest
      (cmds ++ result.1, result.2)

/-- `Arrangement_Context._effectuate_virtual_voltages`: one `dc_constant_V`
write pair per channel using the freshly corrected vector, stopping at the
first out-of-range voltage. -/
def effectuateVirtualVoltages (ro : Option ℕ) (arr : Arrangement) :
    List ScpiCmd × Option String :=
  emitConstantWrites (actualVoltages ro arr) arr.channels.enum

/-- One write pair per (channel, voltage) pair; used to state that the
emitted commands are exactly one write pair per channel. -/
def zipWrites : List (ℕ × ℚ) → List ScpiCmd
  | [] => []
  | (ch, v) :: rest => ScpiCmd.voltModeFix ch :: ScpiCmd.volt ch v :: zipWrites rest

/-- The `ValueError` message of `set_virtual_voltage(s)`. -/
def noContactMsg (contact : String) : String :=
  "No contact named \"" ++ contact ++ "\""

/-- `Arrangement_Context.set_virtual_voltage`: look the name up (raising on an
unknown name with the state untouched), update one entry, then write every
channel.  The error carries the state at raise time together with the
commands already emitted before the raise. -/
def setVirtualVoltage (ro : Option ℕ) (arr : Arrangement) (contact : String)
    (voltage : ℚ) :
    Except (String × Arrangement × List ScpiCmd) (Arrangement × List ScpiCmd) :=
  match contactIndex arr contact with
  | none => .error (noContactMsg contact, arr, [])
  | some index =>
    let arr1 := { arr with virtualVoltages := arr.virtualVoltages.set index voltage }
    match effectuateVirtualVoltages ro arr1 with
    | (cmds, some e) => .error (e, arr1, cmds)
    | (cmds, none) => .ok (arr1, cmds)

/-- The update loop of `Arrangement_Context.set_virtual_voltages`: entries are
written into the virtual vector one by one, and an unknown name raises with
the earlier updates already applied and nothing written to the instrument. -/
def setVoltagesLoop (arr : Arrangement) :
    List (String × ℚ) → Except (String × Arrangement) Arrangement
  | [] => .ok arr
  | (contact, voltage) :: rest =>
    match contactIndex arr contact with
    | none => .error (noContactMsg contact, arr)
    | some index =>
      setVoltagesLoop
        { arr with virtualVoltages := arr.virtualVoltages.set index voltage } rest

/-- `Arrangement_Context.set_virtual_voltages`: apply all updates, then call
`_effectuate_virtual_voltages` once.  An unknown name raises before any
write; an out-of-range corrected voltage raises mid-write with the commands
already emitted recorded in the error. -/
def setVirtualVoltages (ro : Option ℕ) (arr : Arrangement)
    (pairs : List (String × ℚ)) :
    Except (String × Arrangement × List ScpiCmd) (Arrangement × List ScpiCmd) :=
  match setVoltagesLoop arr pairs with
  | .error (msg, arr1) => .error (msg, arr1, [])
  | .ok arr1 =>
    match effectuateVirtualVoltages ro arr1 with
    | (cmds, some e) => .error (e, arr1, cmds)
    | (cmds, none) => .ok (arr1, cmds)

/-- The state effect of one known-contact update; used to state the batched
update as a fold. -/
def setKnownVoltage (arr : Arrangement) (p : String × ℚ) : Arrangement :=
  match contactIndex arr p.1 with
  | none => arr
  | some index => { arr with virtualVoltages := arr.virtualVoltages.set index p.2 }

/-- `Arrangement_Context.add_correction`: build the identity, overwrite one
row with the factors, and left-multiply into the current correction matrix. -/
def addCorrection (arr : Arrangement) (contact : String) (factors : List ℚ) :
    Except String Arrangement :=
  match contactIndex arr contact with
  | none => .error "KeyError"
  | some index =>
    let multiplier := (identityMat arr.contacts.length).set index factors
    .ok { arr with correction := matMul multiplier arr.correction }

/-- The voltage-stepping loop of `Arrangement_Context._calculate_1d_values`:
set the swept entry, record the corrected vector, repeat. -/
def sweepLoop (ro : Option ℕ) (index : ℕ) :
    Arrangement → List ℚ → List (List ℚ) × Arrangement
  | arr, [] => ([], arr)
  | arr, v :: rest =>
    let arr1 := { arr with virtualVoltages := arr.virtualVoltages.set index v }
    let result := sweepLoop ro index arr1 rest
    (actualVoltages ro arr1 :: result.1, result.2)

/-- `Arrangement_Context._calculate_1d_values`: remember the prior virtual
voltage of the swept contact, run the loop, restore it. -/
def calculate1dValues (ro : Option ℕ) (arr : Arrangement) (contact : String)
    (voltages : List ℚ) : Except String (List (List ℚ) × Arrangement) :=
  match contactIndex arr contact with
  | none => .error "KeyError"
  | some index =>
    let originalVoltage := arr.virtualVoltages.getD index 0
    let result := sweepLoop ro index arr voltages
    .ok (result.1,
      { result.2 with
          virtualVoltages := result.2.virtualVoltages.set index originalVoltage })

/-- `for index, voltage in zip(indices, voltages): vv[index] = voltage`. -/
def setIndices (vv : List ℚ) (indices : List ℕ) (vals : List ℚ) : List ℚ :=
  (indices.zip vals).foldl (fun acc p => acc.set p.1 p.2) vv

/-- `np.linspace(start, stop, steps)` over ℚ: point `i` is
`start + (stop - start) * i / (steps - 1)`.  For `steps = 1` the formula
degenerates (division by zero yields `0` in ℚ) to `[start]`, exactly the
numpy result. -/
def linspace (start stop : ℚ) (steps : ℕ) : List ℚ :=
  (List.range steps).map
    (fun i : ℕ => start + (stop - start) * (i : ℚ) / ((steps : ℚ) - 1))

/-- `forward_and_back` (module-level helper): the forward trace, then
`np.flip(forward)[1:][:-1]`, the reversed trace with both endpoints dropped. -/
def forwardAndBack (start stop : ℚ) (steps : ℕ) : List ℚ :=
  let forward := linspace start stop steps
  forward ++ (forward.reverse.drop 1).dropLast

/-- `[self._contact_index(c) for c in contacts]`, failing on the first
unknown contact like the comprehension raises `KeyError`. -/
def contactIndices (arr : Arrangement) : List String → Option (List ℕ)
  | [] => some []
  | c :: cs =>
    match contactIndex arr c, contactIndices arr cs with
    | some i, some is => some (i :: is)
    | _, _ => none

/-- Length of the shortest list, `none` when there are no lists. -/
def minLen : List (List ℚ) → Option ℕ
  | [] => none
  | l :: ls =>
    some (match minLen ls with
          | none => l.length
          | some m => min l.length m)

/-- Python `zip(*lists)`: tuples of one element per list, stopping at the
shortest list; no lists gives no tuples. -/
def zipStar (ls : List (List ℚ)) : List (List ℚ) :=
  match minLen ls with
  | none => []
  | some m => (List.range m).map (fun t => ls.map (fun l => l.getD t 0))

/-- The row loop of `Arrangement_Context._calculate_detune_values`: write all
listed contacts for this step, record the corrected vector, continue. -/
def detuneLoop (ro : Option ℕ) (indices : List ℕ) :
    Arrangement → List (List ℚ) → List (List ℚ) × Arrangement
  | arr, [] => ([], arr)
  | arr, vals :: rest =>
    let arr1 := { arr with virtualVoltages := setIndices arr.virtualVoltages indices vals }
    let result := detuneLoop ro indices arr1 rest
    (actualVoltages ro arr1 :: result.1, result.2)

/-- `Arrangement_Context._calculate_detune_values`: remember the prior
voltages of the listed contacts, interpolate each contact with
`forward_and_back`, walk the zipped rows, restore the prior voltages. -/
def calculateDetuneValues (ro : Option ℕ) (arr : Arrangement)
    (contacts : List String) (startV endV : List ℚ) (steps : ℕ) :
    Except String (List (List ℚ) × Arrangement) :=
  match contactIndices arr contacts with
  | none => .error "KeyError"
  | some indices =>
    let originalVoltages := indices.map (fun i => arr.virtualVoltages.getD i 0)
    let forwardV := (List.range contacts.length).map
      (fun i => forwardAndBack (startV.getD i 0) (endV.getD i 0) steps)
    let result := detuneLoop ro indices arr (zipStar forwardV)
    .ok (result.1,
      { result.2 with
          virtualVoltages := setIndices result.2.virtualVoltages indices originalVoltages })

/-- `Arrangement_Context.__exit__` (and `close`): write
`outp:trig:sour {port},hold` for every external trigger route, then free every
named internal trigger back to the pool.  Neither dict is cleared. -/
def arrangementExit (pool : Finset ℕ) (arr : Arrangement) :
    Finset ℕ × List ScpiCmd :=
  (arr.internalTriggers.foldl (fun pl p => free_trigger pl p.2) pool,
   arr.externalTriggers.map (fun p => ScpiCmd.outpTrigSourHold p.2))

/-- `Virtual_Sweep_Context.__exit__`: clear the step marker on the first
channel, then abort and force immediate triggering on every contact channel. -/
def virtualSweepExit (arr : Arrangement) : List ScpiCmd :=
  ScpiCmd.dcMarkSstZero (arr.channels.getD 0 0) ::
    (List.range arr.contacts.length).foldr
      (fun i acc =>
        ScpiCmd.dcAbort (arr.channels.getD i 0) ::
          ScpiCmd.dcTrigSourImm (arr.channels.getD i 0) :: acc) []

/-- `Virtual_Sweep_Context.close`: `__exit__` followed by
`self._arrangement.close()`. -/
def virtualSweepClose (pool : Finset ℕ) (arr : Arrangement) :
    Finset ℕ × List ScpiCmd :=
  ((arrangementExit pool arr).1, virtualSweepExit arr ++ (arrangementExit pool arr).2)

/-- The pool invariant: the free set and the outstanding set partition the
full trigger range. -/
def PoolInv (s : PoolState) : Prop :=
  s.pool ∪ s.outstanding = Finset.Icc 1 nTriggers ∧ Disjoint s.pool s.outstanding

/-- A two-contact arrangement with a non-identity correction matrix, used to
instantiate the theorems about voltage updates. -/
def pairExampleArr : Arrangement :=
  { contacts := [("a", 0), ("b", 1)],
    channels := [3, 4],
    virtualVoltages := [0, 0],
    correction := [[1, 1 / 2], [0, 1]],
    internalTriggers := [],
    externalTriggers := [] }

/-- A one-contact arrangement whose virtual voltage sits exactly on a rounding
tie, used to instantiate the rounding theorems. -/
def roundingExampleArr : Arrangement :=
  { contacts := [("a", 0)],
    channels := [1],
    virtualVoltages := [1 / 2],
    correction := [[1]],
    internalTriggers := [],
    externalTriggers := [] }

/-- A one-contact arrangement with one external trigger route and one named
internal trigger, used to instantiate the teardown theorems. -/
def closeExampleArr : Arrangement :=
  { contacts := [("a", 0)],
    channels := [1],
    virtualVoltages := [0],
    correction := [[1]],
    internalTriggers := [("sync", 5)],
    externalTriggers := [("out", 2)] }

/-- A two-contact arrangement with the construction-time identity correction
matrix and nonzero virtual voltages. -/
def identityExampleArr : Arrangement :=
  { contacts := [("a", 0), ("b", 1)],
    channels := [1, 2],
    virtualVoltages := [3 / 2, -2],
    correction := identityMat 2,
    internalTriggers := [],
    externalTriggers := [] }

/-! ## General lemmas about the trigger pool -/

theorem subset_foldl_free (l : List (String × ℕ)) :
    ∀ pool : Finset ℕ, pool ⊆ l.foldl (fun pl p => free_trigger pl p.2) pool := by
  induction l with
  | nil => intro pool; exact Finset.Subset.refl pool
  | cons a l ih =>
    intro pool
    simp only [List.foldl_cons]
    exact (Finset.subset_insert a.2 pool).trans (ih (free_trigger pool a.2))

theorem mem_foldl_free (l : List (String × ℕ)) :
    ∀ (pool : Finset ℕ) (p : String × ℕ), p ∈ l →
      p.2 ∈ l.foldl (fun pl q => free_trigger pl q.2) pool := by
  induction l with
  | nil => intro pool p hp; cases hp
  | cons a l ih =>
    intro pool p hp
    simp only [List.foldl_cons]
    rcases List.mem_cons.mp hp with h | h
    · subst h
      exact subset_foldl_free l (free_trigger pool p.2) (Finset.mem_insert_self p.2 pool)
    · exact ih (free_trigger pool a.2) p h

theorem foldl_free_idem (l : List (String × ℕ)) :
    ∀ pool : Finset ℕ, (∀ p ∈ l, p.2 ∈ pool) →
      l.foldl (fun pl q => free_trigger pl q.2) pool = pool := by
  induction l with
  | nil => intro pool _; rfl
  | cons a l ih =>
    intro pool h
    simp only [List.foldl_cons]
    have ha : free_trigger pool a.2 = pool :=
      Finset.insert_eq_self.mpr (h a (List.mem_cons_self a l))
    rw [ha]
    exact ih pool (fun p hp => h p (List.mem_cons_of_mem a hp))

theorem poolInv_step {s s1 : PoolState} {op : TrigOp} (hstep : TrigStep s op s1)
    (hinv : PoolInv s) : PoolInv s1 := by
  obtain ⟨hu, hd⟩ := hinv
  cases hstep with
  | allocOk t ht =>
    constructor
    · rw [← hu]; ext x
      simp only [Finset.mem_union, Finset.mem_erase, Finset.mem_insert]
      constructor
      · rintro (⟨hne, hx⟩ | hx | hx)
        · exact Or.inl hx
        · exact Or.inl (hx ▸ ht)
        · exact Or.inr hx
      · rintro (hx | hx)
        · by_cases hxt : x = t
          · exact Or.inr (Or.inl hxt)
          · exact Or.inl ⟨hxt, hx⟩
        · exact Or.inr (Or.inr hx)
    · rw [Finset.disjoint_left]
      intro x hx hmem
      obtain ⟨hne, hxp⟩ := Finset.mem_erase.mp hx
      rcases Finset.mem_insert.mp hmem with h1 | h1
      · exact hne h1
      · exact Finset.disjoint_left.mp hd hxp h1
  | allocFail h => exact ⟨hu, hd⟩
  | freeTrig t ht =>
    constructor
    · rw [← hu]; ext x
      simp only [free_trigger, Finset.mem_union, Finset.mem_insert, Finset.mem_erase]
      constructor
      · rintro ((hx | hx) | ⟨hne, hx⟩)
        · exact Or.inr (hx ▸ ht)
        · exact Or.inl hx
        · exact Or.inr hx
      · rintro (hx | hx)
        · exact Or.inl (Or.inr hx)
        · by_cases hxt : x = t
          · exact Or.inl (Or.inl hxt)
          · exact Or.inr ⟨hxt, hx⟩
    · rw [Finset.disjoint_left]
      intro x hx hmem
      obtain ⟨hne, hxo⟩ := Finset.mem_erase.mp hmem
      rcases Finset.mem_insert.mp (by simpa [free_trigger] using hx) with h1 | h1
      · exact hne h1
      · exact Finset.disjoint_left.mp hd h1 hxo

theorem poolInv_trace {s ops s1} (h : TrigTrace s ops s1) (hinv : PoolInv s) :
    PoolInv s1 := by
  induction h with
  | nil s => exact hinv
  | cons hstep htail ih => exact ih (poolInv_step hstep hinv)

theorem poolInv_init : PoolInv initState := by
  constructor
  · simp [initState, initialTriggerPool]
  · simp [initState]

/-! ## Claim theorems about the trigger pool -/

/-- Claim C1: from the full pool of 14 internal trigger ids, every sequence of
allocate/free operations keeps the free pool and the outstanding ids a
disjoint partition of 1..14.  Hence an id is never issued again while it is
still outstanding, at most 14 ids are outstanding simultaneously, and
`allocate_trigger` raises its error exactly when the free pool is empty. -/
theorem trigger_pool_invariant (ops : List TrigOp) (s : PoolState)
    (h : TrigTrace initState ops s) :
    s.pool ∪ s.outstanding = Finset.Icc 1 nTriggers ∧
    Disjoint s.pool s.outstanding ∧
    s.outstanding.card ≤ nTriggers ∧
    (∀ (t : ℕ) (s2 : PoolState),
        TrigStep s (TrigOp.alloc (AllocResult.ok t)) s2 → t ∉ s.outstanding) ∧
    ((∃ s2 : PoolState,
        TrigStep s (TrigOp.alloc AllocResult.resourceExhausted) s2) ↔
      s.pool = ∅) := by
  obtain ⟨hu, hd⟩ := poolInv_trace h poolInv_init
  refine ⟨hu, hd, ?_, ?_, ?_⟩
  · calc s.outstanding.card ≤ (s.pool ∪ s.outstanding).card :=
        Finset.card_le_card Finset.subset_union_right
      _ = nTriggers := by rw [hu]; decide
  · intro t s2 hstep
    cases hstep with
    | allocOk _ ht => exact fun hmem => Finset.disjoint_left.mp hd ht hmem
  · constructor
    · rintro ⟨s2, hstep⟩
      cases hstep with
      | allocFail h2 => exact h2
    · intro h2
      exact ⟨s, TrigStep.allocFail s h2⟩

/-- Concrete run: allocating id 3 from the fresh pool satisfies the pool
invariant conclusions. -/
theorem trigger_pool_invariant_witness :
    TrigTrace initState [TrigOp.alloc (AllocResult.ok 3)]
      ⟨initialTriggerPool.erase 3, insert 3 ∅⟩ ∧
    (insert 3 ∅ : Finset ℕ).card ≤ nTriggers := by
  have htr : TrigTrace initState [TrigOp.alloc (AllocResult.ok 3)]
      ⟨initialTriggerPool.erase 3, insert 3 ∅⟩ :=
    TrigTrace.cons (TrigStep.allocOk initState 3 (by decide)) (TrigTrace.nil _)
  exact ⟨htr, (trigger_pool_invariant _ _ htr).2.2.1⟩

/-- Claim C10: `free_trigger` only inserts into the free set, so freeing the
same trigger twice equals freeing it once, and freeing an id already in the
pool leaves the pool unchanged and raises no error. -/
theorem free_trigger_idempotent :
    (∀ (pool : Finset ℕ) (t : ℕ),
        free_trigger (free_trigger pool t) t = free_trigger pool t) ∧
    (∀ (pool : Finset ℕ) (t : ℕ), t ∈ pool → free_trigger pool t = pool) := by
  constructor
  · intro pool t
    simp [free_trigger]
  · intro pool t h
    exact Finset.insert_eq_self.mpr h

/-- Concrete run: freeing id 5, which is already free, leaves the fresh pool
unchanged. -/
theorem free_trigger_idempotent_witness :
    5 ∈ initialTriggerPool ∧ free_trigger initialTriggerPool 5 = initialTriggerPool :=
  ⟨by decide, free_trigger_idempotent.2 initialTriggerPool 5 (by decide)⟩

/-- Claim C9 (amended): a second `close()` on an Arrangement or a sweep
session raises no error and returns the trigger pool and arrangement to the
instrument unchanged, but it re-emits exactly the same teardown SCPI commands
as the first close (the trigger dictionaries are not cleared). -/
theorem close_twice_amended (pool : Finset ℕ) (arr : Arrangement) :
    arrangementExit (arrangementExit pool arr).1 arr = arrangementExit pool arr ∧
    virtualSweepClose (virtualSweepClose pool arr).1 arr =
      virtualSweepClose pool arr := by
  have hfst : (arrangementExit (arrangementExit pool arr).1 arr).1 =
      (arrangementExit pool arr).1 := by
    show arr.internalTriggers.foldl (fun pl p => free_trigger pl p.2)
        (arr.internalTriggers.foldl (fun pl p => free_trigger pl p.2) pool) = _
    exact foldl_free_idem arr.internalTriggers _
      (fun p hp => mem_foldl_free arr.internalTriggers pool p hp)
  constructor
  · exact Prod.ext hfst rfl
  · exact Prod.ext hfst rfl

/-- Counterexample to claim C9 as stated: closing this sweep session a second
time emits the stop-marker, abort, trigger-release and external-hold commands
again, so the stream of emitted instrument commands does change. -/
theorem close_twice_counterexample :
    (virtualSweepClose
        (virtualSweepClose initialTriggerPool closeExampleArr).1 closeExampleArr).2 =
      [ScpiCmd.dcMarkSstZero 1, ScpiCmd.dcAbort 1, ScpiCmd.dcTrigSourImm 1,
        ScpiCmd.outpTrigSourHold 2] ∧
    (virtualSweepClose
        (virtualSweepClose initialTriggerPool closeExampleArr).1 closeExampleArr).2 ≠
      [] := by
  constructor
  · rfl
  · decide

/-! ## Lemmas about vectors, matrices and indexed updates -/

theorem dot_cons (a b : ℚ) (xs ys : List ℚ) :
    dot (a :: xs) (b :: ys) = a * b + dot xs ys := by
  simp [dot]

theorem dot_replicate_zero (v : List ℚ) :
    ∀ n : ℕ, dot (List.replicate n 0) v = 0 := by
  induction v with
  | nil => intro n; cases n <;> simp [dot]
  | cons b ys ih =>
    intro n
    cases n with
    | zero => simp [dot]
    | succ m => simp [List.replicate_succ, dot_cons, ih m]

theorem dot_stdBasis (v : List ℚ) :
    ∀ (n i : ℕ), v.length = n → i < n → dot (stdBasis n i) v = v.getD i 0 := by
  induction v with
  | nil => intro n i hn hi; subst hn; exact absurd hi (Nat.not_lt_zero i)
  | cons a xs ih =>
    intro n i hn hi
    subst hn
    cases i with
    | zero =>
      show dot (1 :: List.replicate xs.length 0) (a :: xs) = a
      rw [dot_cons, dot_replicate_zero xs xs.length]
      ring
    | succ j =>
      show dot (0 :: stdBasis xs.length j) (a :: xs) = xs.getD j 0
      rw [dot_cons, ih xs.length j rfl (Nat.lt_of_succ_lt_succ hi)]
      ring

theorem length_matVec (m : List (List ℚ)) (v : List ℚ) :
    (matVec m v).length = m.length := by simp [matVec]

theorem length_identityMat (n : ℕ) : (identityMat n).length = n := by
  simp [identityMat]

theorem matVec_identity (v : List ℚ) : matVec (identityMat v.length) v = v := by
  apply List.ext_getElem
  · simp [matVec, identityMat]
  · intro i h1 h2
    simp only [matVec, identityMat, List.getElem_map, List.getElem_range]
    rw [dot_stdBasis v v.length i rfl h2, List.getD_eq_getElem v 0 h2]

theorem set_getD_self (l : List ℚ) : ∀ i : ℕ, l.set i (l.getD i 0) = l := by
  induction l with
  | nil => intro i; rfl
  | cons a l ih =>
    intro i
    cases i with
    | zero => rfl
    | succ n =>
      show a :: l.set n (l.getD n 0) = a :: l
      rw [ih n]

theorem getD_set_self (l : List ℚ) : ∀ (i : ℕ) (a : ℚ), i < l.length →
    (l.set i a).getD i 0 = a := by
  induction l with
  | nil => intro i a h; exact absurd h (Nat.not_lt_zero i)
  | cons b l ih =>
    intro i a h
    cases i with
    | zero => rfl
    | succ n => exact ih n a (Nat.lt_of_succ_lt_succ h)

theorem getD_set_ne (l : List ℚ) : ∀ (i j : ℕ) (a : ℚ), i ≠ j →
    (l.set i a).getD j 0 = l.getD j 0 := by
  induction l with
  | nil => intro i j a _; rfl
  | cons b l ih =>
    intro i j a h
    cases i with
    | zero =>
      cases j with
      | zero => exact absurd rfl h
      | succ m => rfl
    | succ n =>
      cases j with
      | zero => rfl
      | succ m => exact ih n m a (fun he => h (by rw [he]))

theorem setIndices_nil_vals (vv : List ℚ) (indices : List ℕ) :
    setIndices vv indices [] = vv := by
  simp [setIndices]

theorem setIndices_cons (vv : List ℚ) (i : ℕ) (indices : List ℕ) (v : ℚ)
    (vals : List ℚ) :
    setIndices vv (i :: indices) (v :: vals) = setIndices (vv.set i v) indices vals :=
  rfl

theorem length_setIndices (indices : List ℕ) :
    ∀ (vals vv : List ℚ), (setIndices vv indices vals).length = vv.length := by
  induction indices with
  | nil => intro vals vv; rfl
  | cons i indices ih =>
    intro vals vv
    cases vals with
    | nil => rw [setIndices_nil_vals]
    | cons v vals => rw [setIndices_cons, ih vals, List.length_set]

theorem setIndices_getD_unlisted (indices : List ℕ) :
    ∀ (vals vv : List ℚ) (p : ℕ), p ∉ indices →
      (setIndices vv indices vals).getD p 0 = vv.getD p 0 := by
  induction indices with
  | nil => intro vals vv p _; rfl
  | cons i indices ih =>
    intro vals vv p hp
    cases vals with
    | nil => rw [setIndices_nil_vals]
    | cons v vals =>
      rw [setIndices_cons, ih vals _ p (fun h => hp (List.mem_cons_of_mem i h)),
        getD_set_ne vv i p v (fun h => hp (h ▸ List.mem_cons_self i indices))]

theorem setIndices_getD_listed (indices : List ℕ) :
    ∀ (vals vv : List ℚ) (j : ℕ), indices.Nodup → j < indices.length →
      j < vals.length → (∀ i ∈ indices, i < vv.length) →
      (setIndices vv indices vals).getD (indices.getD j 0) 0 = vals.getD j 0 := by
  induction indices with
  | nil => intro vals vv j _ hj _ _; exact absurd hj (Nat.not_lt_zero j)
  | cons i indices ih =>
    intro vals vv j hnd hj hv hb
    cases vals with
    | nil => exact absurd hv (Nat.not_lt_zero j)
    | cons v vals =>
      rw [setIndices_cons]
      cases j with
      | zero =>
        have hni : i ∉ indices := (List.nodup_cons.mp hnd).1
        show (setIndices (vv.set i v) indices vals).getD i 0 = v
        rw [setIndices_getD_unlisted indices vals _ i hni,
          getD_set_self vv i v (hb i (List.mem_cons_self i indices))]
      | succ m =>
        show (setIndices (vv.set i v) indices vals).getD (indices.getD m 0) 0 =
          vals.getD m 0
        exact ih vals (vv.set i v) m (List.nodup_cons.mp hnd).2
          (Nat.lt_of_succ_lt_succ hj) (Nat.lt_of_succ_lt_succ hv)
          (fun q hq => by rw [List.length_set]; exact hb q (List.mem_cons_of_mem i hq))

theorem map_getD_range (l : List ℚ) :
    (List.range l.length).map (fun t => l.getD t 0) = l := by
  apply List.ext_getElem
  · simp
  · intro i h1 h2
    simp only [List.getElem_map, List.getElem_range]
    exact List.getD_eq_getElem l 0 h2

theorem roundHalfEven_intCast (n : ℤ) : roundHalfEven (n : ℚ) = n := by
  unfold roundHalfEven
  rw [Int.floor_intCast]
  norm_num

theorem roundHalfEven_half : roundHalfEven (1 / 2 : ℚ) = 0 := by
  have hf : (⌊(1 / 2 : ℚ)⌋ : ℤ) = 0 := by norm_num [Int.floor_eq_iff]
  unfold roundHalfEven
  rw [hf]
  norm_num

theorem npRound_two_half : npRound 2 (1 / 2 : ℚ) = 1 / 2 := by
  unfold npRound
  rw [show (1 / 2 : ℚ) * 10 ^ 2 = ((50 : ℤ) : ℚ) from by norm_num,
    roundHalfEven_intCast]
  norm_num

theorem npRound_zero_half : npRound 0 (1 / 2 : ℚ) = 0 := by
  unfold npRound
  norm_num [roundHalfEven_half]

theorem roundingExample_product :
    matVec roundingExampleArr.correction roundingExampleArr.virtualVoltages =
      [1 / 2] := by
  show matVec [[1]] [1 / 2] = [1 / 2]
  simp [matVec, dot]

/-! ## Claim theorems about the correction engine -/

/-- Claim C7: with the identity correction matrix — the matrix every
Arrangement is constructed with — and no rounding precision configured, the
physical-voltage vector equals the virtual-voltage vector. -/
theorem actual_voltages_identity (arr : Arrangement)
    (hc : arr.correction = identityMat arr.virtualVoltages.length) :
    actualVoltages none arr = arr.virtualVoltages ∧
    ∀ input : List (String × ℕ),
      (fixContactOrder input).correction =
        identityMat (fixContactOrder input).virtualVoltages.length := by
  constructor
  · show matVec arr.correction arr.virtualVoltages = arr.virtualVoltages
    rw [hc]
    exact matVec_identity arr.virtualVoltages
  · intro input
    show identityMat input.length =
      identityMat (List.replicate input.length (0 : ℚ)).length
    rw [List.length_replicate]

/-- Concrete run: the identity-correction arrangement returns its virtual
voltages unchanged. -/
theorem actual_voltages_identity_witness :
    identityExampleArr.correction =
      identityMat identityExampleArr.virtualVoltages.length ∧
    actualVoltages none identityExampleArr = [3 / 2, -2] :=
  ⟨by decide, (actual_voltages_identity identityExampleArr (by decide)).1⟩

/-- Claim C8 (amended): `actual_voltages` returns the matrix-vector product,
rounded half-to-even at the configured number of decimals when that number is
nonzero; with `None` (the default) or `0` configured the product is returned
unrounded, because the source tests Python truthiness of `_round_off`. -/
theorem actual_voltages_rounding_amended :
    (∀ (arr : Arrangement) (d : ℕ), d ≠ 0 →
        actualVoltages (some d) arr =
          (matVec arr.correction arr.virtualVoltages).map (npRound d)) ∧
    (∀ arr : Arrangement,
        actualVoltages none arr = matVec arr.correction arr.virtualVoltages) ∧
    (∀ arr : Arrangement,
        actualVoltages (some 0) arr = matVec arr.correction arr.virtualVoltages) := by
  refine ⟨?_, fun arr => rfl, fun arr => rfl⟩
  intro arr d hd
  show (if d = 0 then matVec arr.correction arr.virtualVoltages
    else (matVec arr.correction arr.virtualVoltages).map (npRound d)) = _
  rw [if_neg hd]

/-- Concrete run: with precision 2 configured, the tie value 1/2 is returned
as the rounded product (1/2 is exact at two decimals). -/
theorem actual_voltages_rounding_amended_witness :
    (2 : ℕ) ≠ 0 ∧
    actualVoltages (some 2) roundingExampleArr =
      (matVec roundingExampleArr.correction roundingExampleArr.virtualVoltages).map
        (npRound 2) ∧
    actualVoltages (some 2) roundingExampleArr = [1 / 2] := by
  refine ⟨by decide,
    actual_voltages_rounding_amended.1 roundingExampleArr 2 (by decide), ?_⟩
  rw [actual_voltages_rounding_amended.1 roundingExampleArr 2 (by decide),
    roundingExample_product]
  simp only [List.map_cons, List.map_nil]
  rw [npRound_two_half]

/-- Counterexample to claim C8 as stated: with rounding precision 0 configured
the code skips rounding entirely (Python truthiness of 0), so the tie 1/2 is
returned unrounded instead of being rounded to the even integer 0. -/
theorem actual_voltages_round_zero_counterexample :
    actualVoltages (some 0) roundingExampleArr = [1 / 2] ∧
    (matVec roundingExampleArr.correction roundingExampleArr.virtualVoltages).map
        (npRound 0) = [0] ∧
    actualVoltages (some 0) roundingExampleArr ≠
      (matVec roundingExampleArr.correction roundingExampleArr.virtualVoltages).map
        (npRound 0) := by
  have h1 : actualVoltages (some 0) roundingExampleArr = [1 / 2] := by
    show matVec roundingExampleArr.correction roundingExampleArr.virtualVoltages =
      [1 / 2]
    exact roundingExample_product
  have h2 :
      (matVec roundingExampleArr.correction roundingExampleArr.virtualVoltages).map
        (npRound 0) = [0] := by
    rw [roundingExample_product]
    simp only [List.map_cons, List.map_nil]
    rw [npRound_zero_half]
  refine ⟨h1, h2, ?_⟩
  rw [h1, h2]
  intro hc
  injection hc with h3 h4
  exact absurd h3 (by norm_num)

/-- Claim C6: setting a virtual voltage on an unknown contact raises the
no-such-contact error, leaving the arrangement exactly as it was and emitting
no instrument write. -/
theorem set_virtual_voltage_unknown_contact (ro : Option ℕ) (arr : Arrangement)
    (contact : String) (voltage : ℚ) (h : contactIndex arr contact = none) :
    setVirtualVoltage ro arr contact voltage =
      .error (noContactMsg contact, arr, []) := by
  unfold setVirtualVoltage
  rw [h]

/-- Concrete run: a missing contact name raises and leaves the arrangement
untouched. -/
theorem set_virtual_voltage_unknown_contact_witness :
    contactIndex pairExampleArr "missing" = none ∧
    setVirtualVoltage none pairExampleArr "missing" 1 =
      .error (noContactMsg "missing", pairExampleArr, []) :=
  ⟨by decide,
    set_virtual_voltage_unknown_contact none pairExampleArr "missing" 1 (by decide)⟩

/-- Claim C3: `add_correction` on a known contact with one factor per contact
replaces the correction matrix by P * M, where P is the identity matrix with
the row at that contact index replaced by the factors and M is the previous
matrix; every other field of the arrangement is unchanged. -/
theorem add_correction_left_multiply (arr : Arrangement) (contact : String)
    (factors : List ℚ) (index : ℕ) (h : contactIndex arr contact = some index)
    (hlen : factors.length = arr.contacts.length) :
    addCorrection arr contact factors =
      .ok { arr with correction := matMul ((identityMat arr.contacts.length).set index factors) arr.correction } ∧
    ∀ arr2 : Arrangement, addCorrection arr contact factors = .ok arr2 →
      arr2.contacts = arr.contacts ∧ arr2.channels = arr.channels ∧
      arr2.virtualVoltages = arr.virtualVoltages ∧
      arr2.internalTriggers = arr.internalTriggers ∧
      arr2.externalTriggers = arr.externalTriggers := by
  have h1 : addCorrection arr contact factors =
      .ok { arr with correction := matMul ((identityMat arr.contacts.length).set index factors) arr.correction } := by
    unfold addCorrection
    rw [h]
  refine ⟨h1, ?_⟩
  intro arr2 h2
  rw [h1] at h2
  injection h2 with h3
  subst h3
  exact ⟨rfl, rfl, rfl, rfl, rfl⟩

/-- Concrete run: layering a row correction on contact b of the two-contact
arrangement left-multiplies the single-row perturbation into the matrix. -/
theorem add_correction_left_multiply_witness :
    contactIndex pairExampleArr "b" = some 1 ∧
    ([1 / 4, 1] : List ℚ).length = pairExampleArr.contacts.length ∧
    addCorrection pairExampleArr "b" [1 / 4, 1] =
      .ok { pairExampleArr with correction := matMul ((identityMat pairExampleArr.contacts.length).set 1 [1 / 4, 1]) pairExampleArr.correction } :=
  ⟨by decide, by decide,
    (add_correction_left_multiply pairExampleArr "b" [1 / 4, 1] 1 (by decide)
      (by decide)).1⟩

/-! ## Lemmas about the sweep loops and batched updates -/

theorem sweepLoop_snd (ro : Option ℕ) (index : ℕ) :
    ∀ (vs : List ℚ) (arr : Arrangement),
      ∃ w : List ℚ,
        (sweepLoop ro index arr vs).2 = { arr with virtualVoltages := w } ∧
          (w = arr.virtualVoltages ∨
            ∃ v, w = arr.virtualVoltages.set index v) := by
  intro vs
  induction vs with
  | nil =>
    intro arr
    exact ⟨arr.virtualVoltages, rfl, Or.inl rfl⟩
  | cons v rest ih =>
    intro arr
    rcases ih { arr with virtualVoltages := arr.virtualVoltages.set index v } with
      ⟨w, hw, hc⟩
    refine ⟨w, ?_, ?_⟩
    · show (sweepLoop ro index
        { arr with virtualVoltages := arr.virtualVoltages.set index v } rest).2 =
        { arr with virtualVoltages := w }
      rw [hw]
    · rcases hc with hc | ⟨u, hc⟩
      · exact Or.inr ⟨v, hc⟩
      · refine Or.inr ⟨u, ?_⟩
        rw [hc]
        exact List.set_set v u arr.virtualVoltages index

/-- Claim C5: building a 1D sweep restores the swept contact and returns the
arrangement exactly as it was: no field of the arrangement changes. -/
theorem build_1d_sweep_restores_state (ro : Option ℕ) (arr : Arrangement)
    (contact : String) (voltages : List ℚ) (index : ℕ)
    (h : contactIndex arr contact = some index) :
    ∃ rows, calculate1dValues ro arr contact voltages = .ok (rows, arr) := by
  refine ⟨(sweepLoop ro index arr voltages).1, ?_⟩
  unfold calculate1dValues
  rw [h]
  show Except.ok ((sweepLoop ro index arr voltages).1,
    { (sweepLoop ro index arr voltages).2 with virtualVoltages := (sweepLoop ro index arr voltages).2.virtualVoltages.set index (arr.virtualVoltages.getD index 0) }) =
    Except.ok ((sweepLoop ro index arr voltages).1, arr)
  rcases sweepLoop_snd ro index voltages arr with ⟨w, hw, hcase⟩
  rw [hw]
  rcases hcase with hc | ⟨v, hc⟩
  · subst hc
    show Except.ok ((sweepLoop ro index arr voltages).1,
      { arr with virtualVoltages := arr.virtualVoltages.set index (arr.virtualVoltages.getD index 0) }) =
      Except.ok ((sweepLoop ro index arr voltages).1, arr)
    rw [set_getD_self]
  · subst hc
    show Except.ok ((sweepLoop ro index arr voltages).1,
      { arr with virtualVoltages := (arr.virtualVoltages.set index v).set index (arr.virtualVoltages.getD index 0) }) =
      Except.ok ((sweepLoop ro index arr voltages).1, arr)
    rw [List.set_set, set_getD_self]

/-- Concrete run: sweeping contact a of the two-contact arrangement leaves
every field of the arrangement unchanged. -/
theorem build_1d_sweep_restores_state_witness :
    contactIndex pairExampleArr "a" = some 0 ∧
    ∃ rows, calculate1dValues none pairExampleArr "a" [1, 2] =
      .ok (rows, pairExampleArr) :=
  ⟨by decide,
    build_1d_sweep_restores_state none pairExampleArr "a" [1, 2] 0 (by decide)⟩

theorem setKnownVoltage_fields (arr : Arrangement) (p : String × ℚ) :
    (setKnownVoltage arr p).contacts = arr.contacts ∧
    (setKnownVoltage arr p).channels = arr.channels ∧
    (setKnownVoltage arr p).correction = arr.correction := by
  unfold setKnownVoltage
  cases contactIndex arr p.1 with
  | none => exact ⟨rfl, rfl, rfl⟩
  | some i => exact ⟨rfl, rfl, rfl⟩

theorem foldl_setKnownVoltage_fields (pairs : List (String × ℚ)) :
    ∀ arr : Arrangement,
      (pairs.foldl setKnownVoltage arr).contacts = arr.contacts ∧
      (pairs.foldl setKnownVoltage arr).channels = arr.channels ∧
      (pairs.foldl setKnownVoltage arr).correction = arr.correction := by
  induction pairs with
  | nil => intro arr; exact ⟨rfl, rfl, rfl⟩
  | cons p rest ih =>
    intro arr
    obtain ⟨h1, h2, h3⟩ := ih (setKnownVoltage arr p)
    obtain ⟨g1, g2, g3⟩ := setKnownVoltage_fields arr p
    simp only [List.foldl_cons]
    exact ⟨h1.trans g1, h2.trans g2, h3.trans g3⟩

theorem setVoltagesLoop_ok (pairs : List (String × ℚ)) :
    ∀ arr : Arrangement,
      (∀ p ∈ pairs, (contactIndex arr p.1).isSome = true) →
      setVoltagesLoop arr pairs = .ok (pairs.foldl setKnownVoltage arr) := by
  induction pairs with
  | nil => intro arr _; rfl
  | cons p rest ih =>
    intro arr hknown
    obtain ⟨c, v⟩ := p
    have hp := hknown (c, v) (List.mem_cons_self (c, v) rest)
    cases hsome : contactIndex arr c with
    | none =>
      rw [hsome] at hp
      simp at hp
    | some i =>
      have hstep : setVoltagesLoop arr ((c, v) :: rest) =
          setVoltagesLoop
            { arr with virtualVoltages := arr.virtualVoltages.set i v } rest := by
        show (match contactIndex arr c with
          | none => Except.error (noContactMsg c, arr)
          | some index =>
            setVoltagesLoop
              { arr with virtualVoltages := arr.virtualVoltages.set index v }
              rest) =
          setVoltagesLoop
            { arr with virtualVoltages := arr.virtualVoltages.set i v } rest
        rw [hsome]
      have hsk : setKnownVoltage arr (c, v) =
          { arr with virtualVoltages := arr.virtualVoltages.set i v } := by
        unfold setKnownVoltage
        rw [hsome]
      rw [hstep, List.foldl_cons, hsk]
      exact ih { arr with virtualVoltages := arr.virtualVoltages.set i v }
        (fun q hq => hknown q (List.mem_cons_of_mem (c, v) hq))

theorem emitConstantWrites_spec (chs : List ℕ) :
    ∀ (n : ℕ) (full : List ℚ), chs.length ≤ (full.drop n).length →
      ((∀ v ∈ full.drop n, -10 ≤ v ∧ v ≤ 10) →
        emitConstantWrites full (List.enumFrom n chs) =
          (zipWrites (chs.zip (full.drop n)), none)) ∧
      ((emitConstantWrites full (List.enumFrom n chs)).2 = none →
        (emitConstantWrites full (List.enumFrom n chs)).1 =
          zipWrites (chs.zip (full.drop n))) := by
  induction chs with
  | nil => intro n full _; exact ⟨fun _ => rfl, fun _ => rfl⟩
  | cons c cs ih =>
    intro n full hlen
    have hn : n < full.length := by
      by_contra hcon
      push_neg at hcon
      rw [List.drop_eq_nil_of_le hcon] at hlen
      simp at hlen
    have hdrop : full.drop n = full[n] :: full.drop (n + 1) :=
      List.drop_eq_getElem_cons hn
    have hlen2 : cs.length ≤ (full.drop (n + 1)).length := by
      have htmp := hlen
      rw [hdrop] at htmp
      simp only [List.length_cons, List.length_drop] at htmp ⊢
      omega
    obtain ⟨ih1, ih2⟩ := ih (n + 1) full hlen2
    constructor
    · intro hrange
      have hv : -10 ≤ full[n] ∧ full[n] ≤ 10 := by
        apply hrange
        rw [hdrop]
        exact List.mem_cons_self _ _
      have hdc : dcConstantV c (full.getD n 0) =
          .ok [ScpiCmd.voltModeFix c, ScpiCmd.volt c full[n]] := by
        rw [List.getD_eq_getElem full 0 hn]
        unfold dcConstantV
        rw [if_neg]
        intro hcon
        rcases hcon with hcon | hcon
        · exact absurd hv.1 (not_le.mpr hcon)
        · exact absurd hv.2 (not_le.mpr hcon)
      have hrest : emitConstantWrites full (List.enumFrom (n + 1) cs) =
          (zipWrites (cs.zip (full.drop (n + 1))), none) := by
        apply ih1
        intro v hvmem
        apply hrange
        rw [hdrop]
        exact List.mem_cons_of_mem _ hvmem
      show (match dcConstantV c (full.getD n 0) with
        | Except.error e => (([] : List ScpiCmd), some e)
        | Except.ok cmds =>
          (cmds ++ (emitConstantWrites full (List.enumFrom (n + 1) cs)).1,
            (emitConstantWrites full (List.enumFrom (n + 1) cs)).2)) =
        (zipWrites ((c :: cs).zip (full.drop n)), none)
      rw [hdc, hrest, hdrop]
      rfl
    · intro hok
      cases hdc : dcConstantV c (full.getD n 0) with
      | error e =>
        exfalso
        have hsome : (emitConstantWrites full (List.enumFrom n (c :: cs))).2 =
            some e := by
          show (match dcConstantV c (full.getD n 0) with
            | Except.error e => (([] : List ScpiCmd), some e)
            | Except.ok cmds =>
              (cmds ++ (emitConstantWrites full (List.enumFrom (n + 1) cs)).1,
                (emitConstantWrites full (List.enumFrom (n + 1) cs)).2)).2 =
            some e
          rw [hdc]
        rw [hsome] at hok
        exact Option.noConfusion hok
      | ok cmds =>
        have hsnd : (emitConstantWrites full (List.enumFrom n (c :: cs))).2 =
            (emitConstantWrites full (List.enumFrom (n + 1) cs)).2 := by
          show (match dcConstantV c (full.getD n 0) with
            | Except.error e => (([] : List ScpiCmd), some e)
            | Except.ok cmds =>
              (cmds ++ (emitConstantWrites full (List.enumFrom (n + 1) cs)).1,
                (emitConstantWrites full (List.enumFrom (n + 1) cs)).2)).2 = _
          rw [hdc]
        have h2 : (emitConstantWrites full (List.enumFrom (n + 1) cs)).2 =
            none := by
          rw [hsnd] at hok
          exact hok
        have hcmds : cmds =
            [ScpiCmd.voltModeFix c, ScpiCmd.volt c (full.getD n 0)] := by
          unfold dcConstantV at hdc
          by_cases hcond : full.getD n 0 < -10 ∨ 10 < full.getD n 0
          · rw [if_pos hcond] at hdc
            exact Except.noConfusion hdc
          · rw [if_neg hcond] at hdc
            injection hdc with h3
            exact h3.symm
        show (match dcConstantV c (full.getD n 0) with
          | Except.error e => (([] : List ScpiCmd), some e)
          | Except.ok cmds =>
            (cmds ++ (emitConstantWrites full (List.enumFrom (n + 1) cs)).1,
              (emitConstantWrites full (List.enumFrom (n + 1) cs)).2)).1 =
          zipWrites ((c :: cs).zip (full.drop n))
        rw [hdc, hcmds, ih2 h2, hdrop, List.getD_eq_getElem full 0 hn]
        rfl

theorem effectuate_ok_of_range (ro : Option ℕ) (arr : Arrangement)
    (h : arr.channels.length ≤ (actualVoltages ro arr).length)
    (hrange : ∀ v ∈ actualVoltages ro arr, -10 ≤ v ∧ v ≤ 10) :
    effectuateVirtualVoltages ro arr =
      (zipWrites (arr.channels.zip (actualVoltages ro arr)), none) := by
  unfold effectuateVirtualVoltages
  have h2 := (emitConstantWrites_spec arr.channels 0 (actualVoltages ro arr)
    (by simpa using h)).1 (by simpa using hrange)
  simpa [List.enum] using h2

theorem effectuate_cmds_of_ok (ro : Option ℕ) (arr : Arrangement)
    (h : arr.channels.length ≤ (actualVoltages ro arr).length)
    (hok : (effectuateVirtualVoltages ro arr).2 = none) :
    (effectuateVirtualVoltages ro arr).1 =
      zipWrites (arr.channels.zip (actualVoltages ro arr)) := by
  have h2 := (emitConstantWrites_spec arr.channels 0 (actualVoltages ro arr)
    (by simpa using h)).2
    (by simpa [effectuateVirtualVoltages, List.enum] using hok)
  simpa [effectuateVirtualVoltages, List.enum] using h2

/-- Claim C2: with every name known and the recomputed physical voltages
inside the channel range [-10, 10] accepted by the `dc_constant_V` validator,
`set_virtual_voltages` succeeds, updates all named contacts before any write,
and emits exactly one `dc_constant_V` write pair per channel, in channel
order, whose voltages are the correction matrix times the new virtual-voltage
vector; and whenever the call succeeds at all, the emitted commands are
exactly that per-channel list (no per-contact partial writes, no write for
any intermediate state). -/
theorem set_virtual_voltages_atomic (arr : Arrangement)
    (pairs : List (String × ℚ))
    (hknown : ∀ p ∈ pairs, (contactIndex arr p.1).isSome = true)
    (hsquare : arr.correction.length = arr.channels.length)
    (hrange : ∀ v ∈ matVec (pairs.foldl setKnownVoltage arr).correction
        (pairs.foldl setKnownVoltage arr).virtualVoltages, -10 ≤ v ∧ v ≤ 10) :
    setVirtualVoltages none arr pairs =
      .ok (pairs.foldl setKnownVoltage arr,
        zipWrites ((pairs.foldl setKnownVoltage arr).channels.zip
          (matVec (pairs.foldl setKnownVoltage arr).correction
            (pairs.foldl setKnownVoltage arr).virtualVoltages))) ∧
    (∀ (arr1 : Arrangement) (cmds : List ScpiCmd),
      setVirtualVoltages none arr pairs = .ok (arr1, cmds) →
      cmds = zipWrites (arr1.channels.zip
        (matVec arr1.correction arr1.virtualVoltages))) ∧
    (pairs.foldl setKnownVoltage arr).correction = arr.correction ∧
    (pairs.foldl setKnownVoltage arr).channels = arr.channels ∧
    (pairs.foldl setKnownVoltage arr).contacts = arr.contacts := by
  obtain ⟨hc, hch, hcor⟩ := foldl_setKnownVoltage_fields pairs arr
  have hlen : (pairs.foldl setKnownVoltage arr).channels.length ≤
      (actualVoltages none (pairs.foldl setKnownVoltage arr)).length := by
    show _ ≤ (matVec _ _).length
    rw [length_matVec, hcor, hch, hsquare]
  have heff : effectuateVirtualVoltages none (pairs.foldl setKnownVoltage arr) =
      (zipWrites ((pairs.foldl setKnownVoltage arr).channels.zip
        (actualVoltages none (pairs.foldl setKnownVoltage arr))), none) := by
    apply effectuate_ok_of_range none _ hlen
    intro v hv
    exact hrange v hv
  have hmain : setVirtualVoltages none arr pairs =
      .ok (pairs.foldl setKnownVoltage arr,
        zipWrites ((pairs.foldl setKnownVoltage arr).channels.zip
          (matVec (pairs.foldl setKnownVoltage arr).correction
            (pairs.foldl setKnownVoltage arr).virtualVoltages))) := by
    unfold setVirtualVoltages
    rw [setVoltagesLoop_ok pairs arr hknown]
    show (match effectuateVirtualVoltages none
        (pairs.foldl setKnownVoltage arr) with
      | (cmds, some e) =>
        Except.error (e, pairs.foldl setKnownVoltage arr, cmds)
      | (cmds, none) => Except.ok (pairs.foldl setKnownVoltage arr, cmds)) = _
    rw [heff]
    rfl
  refine ⟨hmain, ?_, hcor, hch, hc⟩
  intro arr1 cmds heq
  rw [hmain] at heq
  injection heq with h3
  injection h3 with h4 h5
  subst h4
  subst h5
  rfl

/-- Concrete run: batch-setting both contacts of the non-identity arrangement
succeeds, with both corrected voltages inside the channel range, emitting one
write pair per channel. -/
theorem set_virtual_voltages_atomic_witness :
    (∀ p ∈ [("a", (1 : ℚ)), ("b", 2)],
      (contactIndex pairExampleArr p.1).isSome = true) ∧
    pairExampleArr.correction.length = pairExampleArr.channels.length ∧
    setVirtualVoltages none pairExampleArr [("a", 1), ("b", 2)] =
      .ok ([("a", (1 : ℚ)), ("b", 2)].foldl setKnownVoltage pairExampleArr,
        zipWrites
          (([("a", (1 : ℚ)), ("b", 2)].foldl setKnownVoltage
              pairExampleArr).channels.zip
            (matVec
              ([("a", (1 : ℚ)), ("b", 2)].foldl setKnownVoltage
                pairExampleArr).correction
              ([("a", (1 : ℚ)), ("b", 2)].foldl setKnownVoltage
                pairExampleArr).virtualVoltages))) := by
  have ha : contactIndex pairExampleArr "a" = some 0 := by decide
  have hb : contactIndex
      { pairExampleArr with virtualVoltages := ([1, 0] : List ℚ) } "b" =
      some 1 := by decide
  have harr1 : setKnownVoltage pairExampleArr ("a", (1 : ℚ)) =
      { pairExampleArr with virtualVoltages := [1, 0] } := by
    unfold setKnownVoltage
    rw [ha]
    rfl
  have harr2 : setKnownVoltage
      { pairExampleArr with virtualVoltages := ([1, 0] : List ℚ) }
      ("b", (2 : ℚ)) =
      { pairExampleArr with virtualVoltages := [1, 2] } := by
    unfold setKnownVoltage
    rw [hb]
    rfl
  have hfold : [("a", (1 : ℚ)), ("b", 2)].foldl setKnownVoltage pairExampleArr =
      { pairExampleArr with virtualVoltages := [1, 2] } := by
    show setKnownVoltage (setKnownVoltage pairExampleArr ("a", 1)) ("b", 2) = _
    rw [harr1, harr2]
  refine ⟨by decide, by decide, ?_⟩
  refine (set_virtual_voltages_atomic pairExampleArr [("a", 1), ("b", 2)]
    (by decide) (by decide) ?_).1
  rw [hfold]
  show ∀ v ∈ matVec pairExampleArr.correction [1, 2], -10 ≤ v ∧ v ≤ 10
  norm_num [pairExampleArr, matVec, dot]

/-! ## Lemmas about the detune sweep -/

theorem actualVoltages_none_identity (arr : Arrangement)
    (hc : arr.correction = identityMat arr.virtualVoltages.length) :
    actualVoltages none arr = arr.virtualVoltages := by
  show matVec arr.correction arr.virtualVoltages = arr.virtualVoltages
  rw [hc]
  exact matVec_identity arr.virtualVoltages

theorem contactIndices_length (arr : Arrangement) :
    ∀ (cs : List String) (is : List ℕ),
      contactIndices arr cs = some is → is.length = cs.length := by
  intro cs
  induction cs with
  | nil =>
    intro is h
    injection h with h2
    subst h2
    rfl
  | cons c cs ih =>
    intro is h
    unfold contactIndices at h
    cases h1 : contactIndex arr c with
    | none => rw [h1] at h; simp at h
    | some i =>
      cases h2 : contactIndices arr cs with
      | none => rw [h1, h2] at h; simp at h
      | some is2 =>
        rw [h1, h2] at h
        injection h with h3
        subst h3
        simp [ih is2 h2]

theorem fab_length (a b : ℚ) (s : ℕ) :
    (forwardAndBack a b s).length = s + (s - 2) := by
  unfold forwardAndBack linspace
  simp only [List.length_append, List.length_dropLast, List.length_drop,
    List.length_reverse, List.length_map, List.length_range]
  omega

theorem detuneLoop_length (ro : Option ℕ) (indices : List ℕ) :
    ∀ (valsList : List (List ℚ)) (arr : Arrangement),
      (detuneLoop ro indices arr valsList).1.length = valsList.length := by
  intro valsList
  induction valsList with
  | nil => intro arr; rfl
  | cons vals rest ih =>
    intro arr
    show (actualVoltages ro _ :: (detuneLoop ro indices _ rest).1).length = _
    simp [ih]

theorem minLen_const (ls : List (List ℚ)) (L : ℕ) :
    (∀ l ∈ ls, l.length = L) → ls ≠ [] → minLen ls = some L := by
  induction ls with
  | nil => intro _ h; exact absurd rfl h
  | cons l ls ih =>
    intro hL _
    cases ls with
    | nil =>
      show some l.length = some L
      rw [hL l (List.mem_cons_self l [])]
    | cons l2 ls2 =>
      have hmin : minLen (l2 :: ls2) = some L :=
        ih (fun q hq => hL q (List.mem_cons_of_mem l hq)) (by simp)
      show some (match minLen (l2 :: ls2) with
        | none => l.length
        | some m => min l.length m) = some L
      rw [hmin, hL l (List.mem_cons_self _ _)]
      simp

theorem zipStar_length (ls : List (List ℚ)) (L : ℕ)
    (hL : ∀ l ∈ ls, l.length = L) (hne : ls ≠ []) :
    (zipStar ls).length = L := by
  unfold zipStar
  rw [minLen_const ls L hL hne]
  simp

theorem zipStar_row_length (ls : List (List ℚ)) :
    ∀ vals ∈ zipStar ls, vals.length = ls.length := by
  intro vals hv
  unfold zipStar at hv
  cases hm : minLen ls with
  | none => rw [hm] at hv; cases hv
  | some m =>
    rw [hm] at hv
    obtain ⟨t, _, rfl⟩ := List.mem_map.mp hv
    simp

theorem zipStar_col (ls : List (List ℚ)) (L j : ℕ)
    (hL : ∀ l ∈ ls, l.length = L) (hj : j < ls.length) :
    (zipStar ls).map (fun vals => vals.getD j 0) = ls.getD j [] := by
  have hne : ls ≠ [] := by
    intro h
    subst h
    simp at hj
  have hmin : minLen ls = some L := minLen_const ls L hL hne
  unfold zipStar
  rw [hmin, List.map_map, List.getD_eq_getElem ls [] hj]
  apply List.ext_getElem
  · simp only [List.length_map, List.length_range]
    exact (hL ls[j] (List.getElem_mem hj)).symm
  · intro t h1 h2
    simp only [List.getElem_map, List.getElem_range, Function.comp_apply]
    have hjm : j < (ls.map (fun l => l.getD t 0)).length := by
      simpa using hj
    rw [List.getD_eq_getElem _ 0 hjm, List.getElem_map]
    exact List.getD_eq_getElem _ 0 h2

theorem detuneLoop_columns (indices : List ℕ) (j : ℕ) :
    ∀ (valsList : List (List ℚ)) (arr : Arrangement),
      arr.correction = identityMat arr.virtualVoltages.length →
      (∀ i ∈ indices, i < arr.virtualVoltages.length) →
      indices.Nodup → j < indices.length →
      (∀ vals ∈ valsList, indices.length ≤ vals.length) →
      (detuneLoop none indices arr valsList).1.map
          (fun r => r.getD (indices.getD j 0) 0) =
        valsList.map (fun vals => vals.getD j 0) := by
  intro valsList
  induction valsList with
  | nil => intro arr _ _ _ _ _; rfl
  | cons vals rest ih =>
    intro arr hid hb hnd hj hvl
    have hvv1 : (setIndices arr.virtualVoltages indices vals).length =
        arr.virtualVoltages.length := length_setIndices indices vals arr.virtualVoltages
    have hid1 : ({ arr with virtualVoltages := setIndices arr.virtualVoltages indices vals } : Arrangement).correction =
        identityMat ({ arr with virtualVoltages := setIndices arr.virtualVoltages indices vals } : Arrangement).virtualVoltages.length := by
      show arr.correction = identityMat (setIndices arr.virtualVoltages indices vals).length
      rw [hvv1]
      exact hid
    have hb1 : ∀ i ∈ indices,
        i < ({ arr with virtualVoltages := setIndices arr.virtualVoltages indices vals } : Arrangement).virtualVoltages.length := by
      intro i hi
      show i < (setIndices arr.virtualVoltages indices vals).length
      rw [hvv1]
      exact hb i hi
    show (actualVoltages none { arr with virtualVoltages := setIndices arr.virtualVoltages indices vals } ::
        (detuneLoop none indices { arr with virtualVoltages := setIndices arr.virtualVoltages indices vals } rest).1).map
        (fun r => r.getD (indices.getD j 0) 0) =
      vals.getD j 0 :: rest.map (fun vals => vals.getD j 0)
    rw [List.map_cons, actualVoltages_none_identity _ hid1,
      ih _ hid1 hb1 hnd hj (fun q hq => hvl q (List.mem_cons_of_mem vals hq))]
    congr 1
    show (setIndices arr.virtualVoltages indices vals).getD (indices.getD j 0) 0 =
      vals.getD j 0
    exact setIndices_getD_listed indices vals arr.virtualVoltages j hnd hj
      (lt_of_lt_of_le hj (hvl vals (List.mem_cons_self vals rest))) hb

theorem calculateDetuneValues_ok (ro : Option ℕ) (arr : Arrangement)
    (contacts : List String) (startV endV : List ℚ) (steps : ℕ)
    (indices : List ℕ) (hmap : contactIndices arr contacts = some indices) :
    calculateDetuneValues ro arr contacts startV endV steps =
      .ok ((detuneLoop ro indices arr (zipStar ((List.range contacts.length).map
          (fun i => forwardAndBack (startV.getD i 0) (endV.getD i 0) steps)))).1,
        { (detuneLoop ro indices arr (zipStar ((List.range contacts.length).map
            (fun i => forwardAndBack (startV.getD i 0) (endV.getD i 0) steps)))).2 with
          virtualVoltages := setIndices (detuneLoop ro indices arr (zipStar ((List.range contacts.length).map (fun i => forwardAndBack (startV.getD i 0) (endV.getD i 0) steps)))).2.virtualVoltages indices (indices.map (fun i => arr.virtualVoltages.getD i 0)) }) := by
  unfold calculateDetuneValues
  rw [hmap]

/-- Claim C4: for contacts known to the arrangement (with distinct in-range
indices, the identity correction and no rounding, so that the program shows
the drive values directly), the detune program drives each listed contact
through `forward_and_back`: the `steps` evenly spaced points from its start
value to its end value followed by the reverse of those points with both
endpoints dropped; in particular one contact from 0 to 1 in 3 steps yields
the 4 rows 0, 1/2, 1, 1/2. -/
theorem detune_sweep_forward_and_back (arr : Arrangement)
    (contacts : List String) (startV endV : List ℚ) (steps : ℕ)
    (indices : List ℕ)
    (hmap : contactIndices arr contacts = some indices)
    (hnd : indices.Nodup)
    (hb : ∀ i ∈ indices, i < arr.virtualVoltages.length)
    (hid : arr.correction = identityMat arr.virtualVoltages.length)
    (hs : startV.length = contacts.length)
    (he : endV.length = contacts.length) :
    (∃ rows arrFin,
      calculateDetuneValues none arr contacts startV endV steps =
        .ok (rows, arrFin) ∧
      (∀ j, j < contacts.length →
        rows.map (fun r => r.getD (indices.getD j 0) 0) =
          forwardAndBack (startV.getD j 0) (endV.getD j 0) steps) ∧
      (contacts ≠ [] → rows.length = steps + (steps - 2))) ∧
    (∀ (a b : ℚ) (n : ℕ),
      forwardAndBack a b n =
        linspace a b n ++ ((linspace a b n).reverse.drop 1).dropLast ∧
      (∀ i, i < n →
        (linspace a b n).getD i 0 = a + (b - a) * (i : ℚ) / ((n : ℚ) - 1))) ∧
    calculateDetuneValues none (fixContactOrder [("a", 1)]) ["a"] [0] [1] 3 =
      .ok ([[0], [1 / 2], [1], [1 / 2]], fixContactOrder [("a", 1)]) := by
  have hlen_ind : indices.length = contacts.length :=
    contactIndices_length arr contacts indices hmap
  have hFVlen : ∀ l ∈ (List.range contacts.length).map
      (fun i => forwardAndBack (startV.getD i 0) (endV.getD i 0) steps),
      l.length = steps + (steps - 2) := by
    intro l hl
    obtain ⟨i, _, rfl⟩ := List.mem_map.mp hl
    exact fab_length _ _ _
  refine ⟨⟨_, _,
    calculateDetuneValues_ok none arr contacts startV endV steps indices hmap,
    ?_, ?_⟩, ?_, ?_⟩
  · intro j hj
    have hvals : ∀ vals ∈ zipStar ((List.range contacts.length).map
        (fun i => forwardAndBack (startV.getD i 0) (endV.getD i 0) steps)),
        indices.length ≤ vals.length := by
      intro vals hv
      rw [zipStar_row_length _ vals hv]
      simp only [List.length_map, List.length_range]
      omega
    rw [detuneLoop_columns indices j _ arr hid hb hnd
      (by rw [hlen_ind]; exact hj) hvals]
    rw [zipStar_col _ (steps + (steps - 2)) j hFVlen
      (by simp only [List.length_map, List.length_range]; exact hj)]
    rw [List.getD_eq_getElem _ []
      (by simp only [List.length_map, List.length_range]; exact hj)]
    simp only [List.getElem_map, List.getElem_range]
  · intro hne
    rw [detuneLoop_length none indices _ arr,
      zipStar_length _ _ hFVlen (by
        intro hcon
        apply hne
        have h0 := congrArg List.length hcon
        simp only [List.length_map, List.length_range, List.length_nil] at h0
        exact List.length_eq_zero.mp h0)]
  · intro a b n
    refine ⟨rfl, ?_⟩
    intro i hi
    unfold linspace
    rw [List.getD_eq_getElem _ 0
      (by simp only [List.length_map, List.length_range]; exact hi)]
    simp only [List.getElem_map, List.getElem_range]
  · have h1 : contactIndices (fixContactOrder [("a", 1)]) ["a"] = some [0] := by
      decide
    rw [calculateDetuneValues_ok none (fixContactOrder [("a", 1)]) ["a"] [0] [1]
      3 [0] h1]
    norm_num [detuneLoop, zipStar, minLen, setIndices, actualVoltages, matVec,
      dot, identityMat, stdBasis, fixContactOrder, forwardAndBack, linspace,
      List.range_succ]

/-- Concrete run: the single-contact detune sweep from 0 to 1 in 3 steps,
with the constructed identity correction. -/
theorem detune_sweep_forward_and_back_witness :
    contactIndices (fixContactOrder [("a", 1)]) ["a"] = some [0] ∧
    ([0] : List ℕ).Nodup ∧
    (∀ i ∈ ([0] : List ℕ),
      i < (fixContactOrder [("a", 1)]).virtualVoltages.length) ∧
    (fixContactOrder [("a", 1)]).correction =
      identityMat (fixContactOrder [("a", 1)]).virtualVoltages.length ∧
    calculateDetuneValues none (fixContactOrder [("a", 1)]) ["a"] [0] [1] 3 =
      .ok ([[0], [1 / 2], [1], [1 / 2]], fixContactOrder [("a", 1)]) := by
  refine ⟨by decide, by decide, by decide, rfl, ?_⟩
  exact (detune_sweep_forward_and_back (fixContactOrder [("a", 1)]) ["a"] [0]
    [1] 3 [0] (by decide) (by decide) (by decide) rfl rfl rfl).2.2
